import Mathlib

/-!
Verification of the core of the aptos-faucet-service repository
(`core/src`): data model, in-memory storage backend, relational and
document backend models of the mint-request claim operation, the
rate-limit engine, the orchestration service, and the decoupled worker.

Modelling conventions:
* `Uuid` identifiers are modelled as `Nat` (only equality is used).
* `DateTime<Utc>` timestamps are modelled as `Nat` seconds; `date_naive`
  becomes division by 86400 (`dateNaive`).  Calls to `Utc::now()` become
  explicit time parameters threaded through each operation.
* `DashMap` / SQL tables keyed by a unique id are modelled as total
  functions `key → Option value` (in-memory backend) or as a row list
  (relational backend, where `UPDATE ... WHERE id` rewrites every row
  whose id matches).
* The in-process rate-limit counter `HashMap<(Uuid, NaiveDate), u64>`
  with the `entry(key).or_insert(0)` access pattern is modelled as a
  total function defaulting to 0; inserting an explicit 0 for an absent
  key is invisible through this view, which is the only view the code
  reads.
* Quota rows carry a freshly generated `id: Uuid` that no code path
  reads; quotas are therefore modelled as a map
  `(user_id, day) → (minted_total, success_count)`.
* Fallible storage calls are modelled with an explicit success flag or
  `Except`; the in-memory backend itself never fails, matching the
  source where every `MemoryStore` method returns `Ok`.
* `attempt` is a `u16` updated with `saturating_add(1)` in the memory
  backend (`satAddU16`) and with `+ 1` on the relational backend.
-/

namespace Faucet

/-- `core/src/models.rs` `Channel`. -/
inductive Channel where
  | web
  | telegram
  | discord
deriving DecidableEq, Repr

/-- `core/src/models.rs` `Role`. -/
inductive Role where
  | user
  | privileged
  | admin
deriving DecidableEq, Repr

/-- `core/src/models.rs` `MintStatus`. -/
inductive MintStatus where
  | pending
  | processing
  | completed
  | failed
deriving DecidableEq, Repr

/-- `Channel::as_str`. -/
def Channel.asStr : Channel → String
  | .web => "web"
  | .telegram => "telegram"
  | .discord => "discord"

/-- `core/src/models.rs` `User` (Uuid → Nat, DateTime → Nat). -/
structure User where
  id : Nat
  channel : Channel
  handle : String
  role : Role
  domain : Option String
  last_seen_at : Nat
deriving DecidableEq, Repr

/-- `core/src/models.rs` `MintRequest`. -/
structure MintRequest where
  id : Nat
  user_id : Nat
  channel : Channel
  amount : Nat
  status : MintStatus
  tx_hash : Option String
  error : Option String
  requested_at : Nat
  processed_at : Option Nat
  attempt : Nat
deriving DecidableEq, Repr

/-- `core/src/models.rs` `MintOutcome`. -/
structure MintOutcome where
  request : MintRequest
  tx_hash : Option String
deriving DecidableEq, Repr

/-- The observable fields of a `Quota` row (`minted_total`,
`success_count`); the generated `id: Uuid` is never read. -/
structure QuotaVal where
  minted_total : Nat
  success_count : Nat
deriving DecidableEq, Repr

/-- `NaiveDate` of a timestamp: `DateTime::date_naive`, with seconds
timestamps and days numbered from the epoch. -/
def dateNaive (t : Nat) : Nat := t / 86400

/-- `u16::saturating_add(1)` as used on `attempt` in the memory backend. -/
def satAddU16 (a : Nat) : Nat := min (a + 1) 65535

/-- Pointwise update of a map modelled as a total function. -/
def fupd {α β : Type} [DecidableEq α] (f : α → β) (k : α) (v : β) : α → β :=
  fun x => if x = k then v else f x

/-- Errors raised by the core (`anyhow::bail!` messages in
`rate_limit.rs` / `service.rs`, plus storage and transfer failures). -/
inductive FErr where
  | invalidAmount
  | amountExceedsRoleLimit
  | dailyCapReached
  | storageUnavailable
  | transferFailed (msg : String)
deriving DecidableEq, Repr

/-! ## In-memory backend (`core/src/db/memory.rs`)

`MemoryStore` state restricted to the mint ledger, the quota ledger and
the failure log, plus the rate limiter's in-process counter (held by
`RateLimiter` in the source but combined here so that the service and
worker can be modelled as functions over one state). -/

/-- Combined system state: `MemoryStore` (mints map, claim queue, quotas,
failure log) together with the `RateLimiter` in-process counter. -/
structure SysState where
  mints : Nat → Option MintRequest
  queue : List Nat
  quotas : Nat × Nat → QuotaVal
  failures : List (Nat × Nat × String)
  rlmem : Nat × Nat → Nat

/-- The empty store with an empty in-process counter. -/
def emptySys : SysState where
  mints := fun _ => none
  queue := []
  quotas := fun _ => ⟨0, 0⟩
  failures := []
  rlmem := fun _ => 0

/-- `MemoryStore::enqueue`: force status `Pending`, insert into the mints
map by id, push the id onto the back of the claim queue. -/
def memEnqueue (r : MintRequest) (st : SysState) : SysState :=
  let r' := { r with status := MintStatus.pending }
  { st with
    mints := fupd st.mints r'.id (some r')
    queue := st.queue ++ [r'.id] }

/-- The pop-and-claim loop inside `MemoryStore::next_pending`: pop ids
from the queue front until one resolves to an entry whose status is
`Pending` or `Processing`; claim that entry (status `Processing`,
`processed_at := now`, `attempt := attempt.saturating_add(1)`). Returns
the claimed request, the updated mints map and the remaining queue. -/
def popClaim (mints : Nat → Option MintRequest) (now : Nat) :
    List Nat → Option MintRequest × (Nat → Option MintRequest) × List Nat
  | [] => (none, mints, [])
  | i :: rest =>
    match mints i with
    | some r =>
      if r.status = MintStatus.pending ∨ r.status = MintStatus.processing then
        let r' := { r with
          status := MintStatus.processing
          processed_at := some now
          attempt := satAddU16 r.attempt }
        (some r', fupd mints i (some r'), rest)
      else popClaim mints now rest
    | none => popClaim mints now rest

/-- The claimed version of a memory-backend entry (status `Processing`,
`processed_at := now`, saturating attempt bump). -/
def memClaimedOf (r : MintRequest) (now : Nat) : MintRequest :=
  { r with
    status := MintStatus.processing
    processed_at := some now
    attempt := satAddU16 r.attempt }

/-- `MemoryStore::next_pending`. -/
def memNextPending (now : Nat) (st : SysState) : Option MintRequest × SysState :=
  let (res, m', q') := popClaim st.mints now st.queue
  (res, { st with mints := m', queue := q' })

/-- `MemoryStore::update_status`: overwrite the status of the entry (if
present); stamp `processed_at := now` only for `Completed`/`Failed`. -/
def memUpdateStatus (requestId : Nat) (status : MintStatus) (now : Nat)
    (st : SysState) : SysState :=
  match st.mints requestId with
  | some r =>
    let r' := { r with
      status := status
      processed_at :=
        if status = MintStatus.completed ∨ status = MintStatus.failed then
          some now
        else r.processed_at }
    { st with mints := fupd st.mints requestId (some r') }
  | none => st

/-- `MemoryStore::record_outcome`: if the entry exists, replace it with
`outcome.request` and then set its `tx_hash` from `outcome.tx_hash`; if
the recorded status is `Completed`, bump `success_count` of the quota
row keyed by `(user_id, requested_at.date_naive())` (creating it with
`minted_total = 0` if absent, i.e. the default of the quota map). -/
def memRecordOutcome (outcome : MintOutcome) (st : SysState) : SysState :=
  let st1 :=
    match st.mints outcome.request.id with
    | some _ =>
      { st with
        mints := fupd st.mints outcome.request.id
          (some { outcome.request with tx_hash := outcome.tx_hash }) }
    | none => st
  if outcome.request.status = MintStatus.completed then
    let key := (outcome.request.user_id, dateNaive outcome.request.requested_at)
    let q := st1.quotas key
    { st1 with
      quotas := fupd st1.quotas key
        { q with success_count := q.success_count + 1 } }
  else st1

/-- `MemoryStore::record_mint`: add `amount` to `minted_total` of the
quota row keyed `(user_id, day)`, creating it with
`minted_total = amount`, `success_count = 0` if absent. -/
def memRecordMint (userId day amount : Nat) (st : SysState) : SysState :=
  let q := st.quotas (userId, day)
  { st with
    quotas := fupd st.quotas (userId, day)
      { q with minted_total := q.minted_total + amount } }

/-- `MemoryStore::log_failure`: append to the failure log. -/
def memLogFailure (requestId whenT : Nat) (reason : String)
    (st : SysState) : SysState :=
  { st with failures := st.failures ++ [(requestId, whenT, reason)] }

/-! ## Rate-limit engine (`core/src/rate_limit.rs`) -/

/-- `core/src/config.rs` `LimitConfig`. -/
structure LimitConfig where
  default_amount : Nat
  default_daily_cap : Nat
  privileged_amount : Nat
  privileged_daily_cap : Option Nat
deriving DecidableEq, Repr

/-- `RateLimiter::max_amount`. -/
def maxAmount (limits : LimitConfig) : Role → Nat
  | .admin => limits.privileged_amount
  | .privileged => limits.privileged_amount
  | .user => limits.default_amount

/-- `RateLimiter::max_daily_cap`. -/
def maxDailyCap (limits : LimitConfig) : Role → Option Nat
  | .admin => limits.privileged_daily_cap
  | .privileged => limits.privileged_daily_cap
  | .user => some limits.default_daily_cap

/-- `RateLimiter::check_and_record`.  `today` is the caller's
`Utc::now().date_naive()`; `repoOk` is the outcome of the durable
`record_mint` call against the quota repository (always true on the
in-memory backend; false models a failing relational/document backend,
whose write is atomic so a failure writes nothing). -/
def check_and_record (limits : LimitConfig) (user : User) (today amount : Nat)
    (repoOk : Bool) (st : SysState) : Except FErr Unit × SysState :=
  if amount > maxAmount limits user.role then
    (Except.error FErr.amountExceedsRoleLimit, st)
  else
    match maxDailyCap limits user.role with
    | some cap =>
      let cur := st.rlmem (user.id, today)
      if cur + amount > cap then
        (Except.error FErr.dailyCapReached, st)
      else
        let st1 := { st with rlmem := fupd st.rlmem (user.id, today) (cur + amount) }
        if repoOk then (Except.ok (), memRecordMint user.id today amount st1)
        else (Except.error FErr.storageUnavailable, st1)
    | none =>
      if repoOk then (Except.ok (), memRecordMint user.id today amount st)
      else (Except.error FErr.storageUnavailable, st)

/-- A sequence of `check_and_record` calls for one user on one day, all
with a healthy quota repository. -/
def runMints (limits : LimitConfig) (user : User) (today : Nat) :
    List Nat → SysState → List (Except FErr Unit) × SysState
  | [], st => ([], st)
  | a :: rest, st =>
    let (res, st') := check_and_record limits user today a true st
    let (results, st'') := runMints limits user today rest st'
    (res :: results, st'')

/-! ## Orchestration service (`core/src/service.rs`) -/

/-- ASCII lowercasing, `str::to_ascii_lowercase` (`Char.toLower` only
lowercases ASCII letters, matching the Rust method). -/
def asciiLower (s : String) : String := ⟨s.data.map Char.toLower⟩

/-- The `(channel, handle)` key of `MemoryStore::key`, both components
ASCII-lowercased (`Channel::as_str` is already lowercase). -/
def userKey (channel : Channel) (handle : String) : String × String :=
  (asciiLower channel.asStr, asciiLower handle)

/-- The user table of `MemoryStore` (`users: DashMap<(String, String), User>`). -/
def UserStore : Type := String × String → Option User

/-- `FaucetService::determine_role`.  `privDomains` is the service's
`privileged_domains` set, whose members were ASCII-lowercased at
construction (`FaucetService::new`). -/
def determine_role (privDomains : List String) (existing : Option Role)
    (domain : Option String) : Role :=
  if existing = some Role.admin then Role.admin
  else
    match domain with
    | some d =>
      if privDomains.contains (asciiLower d) then Role.privileged
      else (existing.getD Role.user)
    | none => existing.getD Role.user

/-- `FaucetService::touch_user`.  `now` is `Utc::now()`, `freshId` the
`Uuid::new_v4()` drawn when the identity is unknown.  The source may
upsert the (same) user twice; both upserts write the same record, so one
map update models them. -/
def touch_user (privDomains : List String) (channel : Channel)
    (handle : String) (domain : Option String) (now freshId : Nat)
    (store : UserStore) : User × UserStore :=
  let key := userKey channel handle
  match store key with
  | some u =>
    let u' := { u with
      role := determine_role privDomains (some u.role) domain
      domain := domain
      last_seen_at := now }
    (u', fupd store key (some u'))
  | none =>
    let u : User := {
      id := freshId
      channel := channel
      handle := handle
      role := determine_role privDomains none domain
      domain := domain
      last_seen_at := now }
    (u, fupd store key (some u))

/-- `core/src/queue.rs` `new_request` (`now` = `Utc::now()`, `freshId` =
`Uuid::new_v4()`). -/
def newRequest (freshId userId : Nat) (channel : Channel)
    (amount now : Nat) : MintRequest where
  id := freshId
  user_id := userId
  channel := channel
  amount := amount
  status := MintStatus.pending
  tx_hash := none
  error := none
  requested_at := now
  processed_at := none
  attempt := 0

/-- `FaucetService::mint` (inline pipeline mode) over the in-memory
backend.  `freshId` is the new request's `Uuid::new_v4()`, `trq` the
`Utc::now()` at request creation (also the day used by the rate
limiter), `tdone` the `Utc::now()` stamped on the terminal transition,
and `transfer` the result of `client.submit_transfer`.  All store calls
are infallible on the memory backend. -/
def serviceMint (limits : LimitConfig) (user : User) (amount : Nat)
    (freshId trq tdone : Nat) (transfer : Except String String)
    (st : SysState) : Except FErr MintOutcome × SysState :=
  if amount = 0 then (Except.error FErr.invalidAmount, st)
  else
    match check_and_record limits user (dateNaive trq) amount true st with
    | (Except.error e, st1) => (Except.error e, st1)
    | (Except.ok _, st1) =>
      let request := newRequest freshId user.id user.channel amount trq
      let st2 := memEnqueue request st1
      let st3 := memUpdateStatus request.id MintStatus.processing tdone st2
      let request1 := { request with
        status := MintStatus.processing
        attempt := satAddU16 request.attempt }
      match transfer with
      | Except.ok hash =>
        let request2 := { request1 with
          status := MintStatus.completed
          tx_hash := some hash
          processed_at := some tdone }
        let outcome : MintOutcome := { request := request2, tx_hash := some hash }
        (Except.ok outcome, memRecordOutcome outcome st3)
      | Except.error err =>
        let request2 := { request1 with
          status := MintStatus.failed
          error := some err
          processed_at := some tdone }
        let outcome : MintOutcome := { request := request2, tx_hash := none }
        let st4 := memRecordOutcome outcome st3
        (Except.error (FErr.transferFailed err),
          memLogFailure request.id tdone err st4)

/-! ## Decoupled mode (`core/src/queue.rs`) -/

/-- `MintQueue::enqueue`: force status `Pending`, persist via the repo,
then publish the (pending) request onto the channel.  Returns the new
store state and the message the worker will receive. -/
def mintQueueEnqueue (request : MintRequest) (st : SysState) :
    SysState × MintRequest :=
  let request' := { request with status := MintStatus.pending }
  (memEnqueue request' st, request')

/-- One iteration of `worker_loop` over the in-memory backend: mark the
received request `Processing`, call the transfer capability, and on
success `record_outcome` with the locally completed request (whose
`processed_at` the worker never stamps), on failure only
`update_status(id, Failed)`. -/
def workerStep (request : MintRequest) (transfer : Except String String)
    (t1 t2 : Nat) (st : SysState) : SysState :=
  let st1 := memUpdateStatus request.id MintStatus.processing t1 st
  match transfer with
  | Except.ok hash =>
    let request' := { request with
      status := MintStatus.completed
      tx_hash := some hash }
    memRecordOutcome { request := request', tx_hash := some hash } st1
  | Except.error _ =>
    memUpdateStatus request.id MintStatus.failed t2 st1

/-! ## Relational backend (`core/src/db/postgres.rs`), mint ledger

Rows of `mint_requests` as a list; `id` is the primary key, so
well-formed tables have pairwise distinct ids. -/

/-- The row returned by `SELECT ... WHERE status = 'pending' ORDER BY
requested_at ASC ... LIMIT 1`: the first row (in table order) among
those with minimal `requested_at` whose status is `Pending`.  (Postgres
leaves the order of ties unspecified; this model fixes the first such
row.) -/
def argminRequested : List MintRequest → Option MintRequest
  | [] => none
  | r :: rest =>
    match argminRequested rest with
    | none => some r
    | some m => if m.requested_at < r.requested_at then some m else some r

/-- The pending-row selection of `PostgresStore::next_pending`. -/
def pgSelectPending (rows : List MintRequest) : Option MintRequest :=
  argminRequested (rows.filter (fun r => r.status = MintStatus.pending))

/-- The claimed version of a selected row: `status = Processing`,
`processed_at = Some(now)`, `attempt += 1`. -/
def pgClaimed (r : MintRequest) (now : Nat) : MintRequest :=
  { r with
    status := MintStatus.processing
    processed_at := some now
    attempt := r.attempt + 1 }

/-- The `UPDATE mint_requests SET status, processed_at, attempt WHERE
id` write of the relational `next_pending`, applied to every row whose
id matches the selected row's. -/
def pgApplyClaim (r : MintRequest) (now : Nat)
    (rows : List MintRequest) : List MintRequest :=
  rows.map (fun q => if q.id = r.id then
    { q with
      status := MintStatus.processing
      processed_at := some now
      attempt := r.attempt + 1 }
    else q)

/-- `PostgresStore::next_pending`: select one pending row (oldest
`requested_at` first) under `FOR UPDATE SKIP LOCKED`, claim it, and
`UPDATE` the row by id; with no pending row, roll back and return
nothing.  The transaction makes the whole operation atomic, so
concurrent invocations are modelled as a sequence of these steps. -/
def pgNextPending (now : Nat) (rows : List MintRequest) :
    Option MintRequest × List MintRequest :=
  match pgSelectPending rows with
  | none => (none, rows)
  | some r => (some (pgClaimed r now), pgApplyClaim r now rows)

/-- `MongoStore::next_pending`: an atomic `find_one_and_update` matching
`status = "pending"` sorted by `requested_at` ascending, setting
`status = "processing"`, `processed_at = now` and incrementing
`attempt`, returning the document after the update — operationally the
same claim step as the relational backend on this abstraction. -/
def mongoNextPending (now : Nat) (docs : List MintRequest) :
    Option MintRequest × List MintRequest :=
  match pgSelectPending docs with
  | none => (none, docs)
  | some r => (some (pgClaimed r now), pgApplyClaim r now docs)

/-- Iterated relational claims: `n` serialized `next_pending` calls. -/
def pgClaimN (now : Nat) : Nat → List MintRequest →
    List (Option MintRequest) × List MintRequest
  | 0, rows => ([], rows)
  | n + 1, rows =>
    let (res, rows') := pgNextPending now rows
    let (results, rows'') := pgClaimN now n rows'
    (res :: results, rows'')

/-- Iterated document-store claims. -/
def mongoClaimN (now : Nat) : Nat → List MintRequest →
    List (Option MintRequest) × List MintRequest
  | 0, docs => ([], docs)
  | n + 1, docs =>
    let (res, docs') := mongoNextPending now docs
    let (results, docs'') := mongoClaimN now n docs'
    (res :: results, docs'')

/-- Iterated memory-backend claims: `n` serialized `next_pending` calls
(the queue mutex makes each call atomic). -/
def memClaimN (now : Nat) : Nat → SysState →
    List (Option MintRequest) × SysState
  | 0, st => ([], st)
  | n + 1, st =>
    let (res, st') := memNextPending now st
    let (results, st'') := memClaimN now n st'
    (res :: results, st'')

/-- The ids of the pending rows of a relational table. -/
def pendingIds (rows : List MintRequest) : List Nat :=
  (rows.filter (fun r => r.status = MintStatus.pending)).map (fun r => r.id)

/-! ## Storage-operation traces

A trace machine over the in-memory backend covering the operations the
pipeline performs: enqueueing a freshly created request, claiming via
`next_pending`, and a full inline-mode `mint`.  Used to state invariants
of pipeline-reachable states. -/

/-- One pipeline-level storage operation. -/
inductive GOp where
  | newReq (freshId userId : Nat) (channel : Channel) (amount trq : Nat)
  | claim (t : Nat)
  | mint (user : User) (amount freshId trq tdone : Nat)
      (transfer : Except String String)

/-- Apply one operation. -/
def gstep (limits : LimitConfig) (st : SysState) : GOp → SysState
  | .newReq freshId userId channel amount trq =>
    memEnqueue (newRequest freshId userId channel amount trq) st
  | .claim t => (memNextPending t st).2
  | .mint user amount freshId trq tdone transfer =>
    (serviceMint limits user amount freshId trq tdone transfer st).2

/-- Run a trace of operations. -/
def runTrace (limits : LimitConfig) (st : SysState) : List GOp → SysState
  | [] => st
  | op :: rest => runTrace limits (gstep limits st op) rest

/-- An operation is well-formed at a state when the request id it
introduces is fresh (`Uuid::new_v4` collides with nothing). -/
def goodAt (st : SysState) : GOp → Bool
  | .newReq freshId _ _ _ _ =>
    match st.mints freshId with | none => true | some _ => false
  | .claim _ => true
  | .mint _ _ freshId _ _ _ =>
    match st.mints freshId with | none => true | some _ => false

/-- A trace is well-formed when every operation is well-formed at the
state where it runs. -/
def goodTrace (limits : LimitConfig) (st : SysState) : List GOp → Bool
  | [] => true
  | op :: rest => goodAt st op && goodTrace limits (gstep limits st op) rest

/-- The per-request field invariant of the mint ledger: `tx_hash` is set
iff the status is `Completed`, `error` is set iff the status is
`Failed`, a terminal status has `processed_at` set, and `processed_at`
is only set once the request has left `Pending`. -/
def ledgerInv (r : MintRequest) : Prop :=
  (r.tx_hash ≠ none ↔ r.status = MintStatus.completed) ∧
  (r.error ≠ none ↔ r.status = MintStatus.failed) ∧
  ((r.status = MintStatus.completed ∨ r.status = MintStatus.failed) →
    r.processed_at ≠ none) ∧
  (r.processed_at ≠ none → r.status ≠ MintStatus.pending)

instance (r : MintRequest) : Decidable (ledgerInv r) := by
  unfold ledgerInv; infer_instance

/-- The terminal record a successful inline mint leaves in the ledger
(derived from `FaucetService::mint`'s success path). -/
def inlineOkRecord (freshId : Nat) (user : User) (amount trq tdone : Nat)
    (hash : String) : MintRequest where
  id := freshId
  user_id := user.id
  channel := user.channel
  amount := amount
  status := MintStatus.completed
  tx_hash := some hash
  error := none
  requested_at := trq
  processed_at := some tdone
  attempt := satAddU16 0

/-- The terminal record a failing inline mint leaves in the ledger
(derived from `FaucetService::mint`'s failure path). -/
def inlineFailRecord (freshId : Nat) (user : User) (amount trq tdone : Nat)
    (err : String) : MintRequest where
  id := freshId
  user_id := user.id
  channel := user.channel
  amount := amount
  status := MintStatus.failed
  tx_hash := none
  error := some err
  requested_at := trq
  processed_at := some tdone
  attempt := satAddU16 0

/-! ## Concrete instances used by counterexamples and witnesses -/

/-- A small limit configuration: ceiling 10 and daily cap 100 for
`User`, ceiling 50 and cap 500 for `Privileged`/`Admin`. -/
def cLims : LimitConfig := ⟨10, 100, 50, some 500⟩

/-- A plain user. -/
def cUser : User := ⟨7, Channel.web, "alice", Role.user, none, 0⟩

/-- A fresh pending request (id 1, user 2, amount 5, requested at 10). -/
def cReq : MintRequest := newRequest 1 2 Channel.web 5 10

/-- Store state after enqueueing the same request twice (`enqueue` is
the advertised-idempotent storage operation): one pending request, two
queue entries. -/
def c1state : SysState := memEnqueue cReq (memEnqueue cReq emptySys)

/-- Store state after enqueueing a fresh request and claiming it. -/
def c2state : SysState :=
  (memNextPending 30 (memEnqueue cReq emptySys)).2

/-- A younger pending request enqueued first (id 1, requested at 50). -/
def c4late : MintRequest := newRequest 1 2 Channel.web 5 50

/-- An older pending request enqueued second (id 2, requested at 3). -/
def c4old : MintRequest := newRequest 2 3 Channel.web 5 3

/-- Store with the younger request ahead of the older in the queue. -/
def c4state : SysState := memEnqueue c4old (memEnqueue c4late emptySys)

/-- Decoupled mode: enqueue `cReq` through `MintQueue::enqueue`, then
run one worker iteration whose transfer fails. -/
def c5state : SysState :=
  workerStep (mintQueueEnqueue cReq emptySys).2
    (Except.error "boom") 20 21 (mintQueueEnqueue cReq emptySys).1

/-- Inline mode on the same store with the same failing transfer. -/
def c5inline : SysState :=
  (serviceMint cLims cUser 5 1 10 21 (Except.error "boom") emptySys).2

/-- A request driven to the terminal status `Completed`. -/
def c8mid : SysState :=
  memUpdateStatus 1 MintStatus.completed 20 (memEnqueue cReq emptySys)

/-- The entry produced by claiming `cReq` at time 30. -/
def c2wreq : MintRequest :=
  { cReq with status := MintStatus.processing, processed_at := some 30, attempt := 1 }

/-- The terminal entry held by `c8mid`. -/
def c8term : MintRequest :=
  { cReq with status := MintStatus.completed, processed_at := some 20 }

/-- The same store after `enqueue` is called again with the same id. -/
def c8fin : SysState := memEnqueue cReq c8mid

/-- A row abandoned in `Processing` (claimed at time 0, worker crashed). -/
def c9row : MintRequest :=
  { id := 1, user_id := 2, channel := Channel.web, amount := 5,
    status := MintStatus.processing, tx_hash := none, error := none,
    requested_at := 0, processed_at := some 0, attempt := 1 }

/-- Memory store holding only the abandoned `Processing` request, its
queue entry long since consumed by the crashed worker's claim. -/
def c9mem : SysState :=
  { emptySys with mints := fupd emptySys.mints 1 (some c9row) }

end Faucet

namespace Faucet

/-! ## Claim theorems -/

/-- C6: for every user and every amount strictly greater than the
configured per-request ceiling of the user's role, `mint` rejects with
`AmountExceedsRoleLimit` and returns the store, the quota ledger and the
in-process counter exactly as they were. -/
theorem claim6_role_limit_rejects_without_mutation
    (limits : LimitConfig) (user : User) (amount freshId trq tdone : Nat)
    (transfer : Except String String) (st : SysState)
    (h : amount > maxAmount limits user.role) :
    serviceMint limits user amount freshId trq tdone transfer st =
      (Except.error FErr.amountExceedsRoleLimit, st) := by
  have h0 : ¬ amount = 0 := by omega
  unfold serviceMint check_and_record
  simp [h0, h]

/-- C6 witness: amount 11 exceeds the `User` ceiling 10 and the call
leaves the empty store untouched. -/
theorem claim6_witness :
    11 > maxAmount cLims Role.user ∧
    serviceMint cLims cUser 11 1 10 20 (Except.ok "h") emptySys =
      (Except.error FErr.amountExceedsRoleLimit, emptySys) :=
  ⟨by decide,
   claim6_role_limit_rejects_without_mutation cLims cUser 11 1 10 20
     (Except.ok "h") emptySys (by decide)⟩

/-- C9 failing input: a request abandoned in `Processing` since time 0
is still not claimable at time 10^9, far past any configured visibility
timeout, on all three backends — `next_pending` consults only the
`Pending` status (relational and document backends) or the residual
queue (memory backend) and never reads `QueueConfig::visibility_timeout`,
so no reclaim-on-timeout exists. -/
theorem claim9_no_reclaim_on_timeout :
    pgNextPending 1000000000 [c9row] = (none, [c9row]) ∧
    mongoNextPending 1000000000 [c9row] = (none, [c9row]) ∧
    (memNextPending 1000000000 c9mem).1 = none ∧
    (memNextPending 1000000000 c9mem).2.mints 1 = some c9row := by
  refine ⟨rfl, rfl, rfl, rfl⟩

/-- C1 counterexample: after `enqueue` is invoked twice with the same
request id (the storage interface advertises `enqueue` as idempotent by
request id), the store holds exactly one pending request (id 1) yet two
serialized `next_pending` invocations each return that request — one
pending request, two callers, claimed twice. -/
theorem claim1_counterexample :
    c1state.mints = fupd (fun _ => none) 1 (some cReq) ∧
    (c1state.mints 1).map (fun r => r.status) = some MintStatus.pending ∧
    c1state.queue = [1, 1] ∧
    ((memClaimN 20 2 c1state).1.filterMap (fun x => x)).map (fun r => r.id)
      = [1, 1] := by
  refine ⟨?_, by decide, by decide, by decide⟩
  funext j
  by_cases h : j = 1 <;>
    simp [c1state, memEnqueue, emptySys, fupd, cReq, newRequest, h]

/-- C2 counterexample: a request claimed by `next_pending` is in status
`Processing` with `processed_at` already set (so `processed_at` is not
equivalent to a terminal status), and a request failed by the decoupled
worker is in status `Failed` with `error` unset (so `error` is not
equivalent to `Failed` through both pipeline modes). -/
theorem claim2_counterexample :
    (c2state.mints 1).map (fun r => r.status) = some MintStatus.processing ∧
    (c2state.mints 1).map (fun r => r.processed_at) = some (some 30) ∧
    (c5state.mints 1).map (fun r => r.status) = some MintStatus.failed ∧
    (c5state.mints 1).map (fun r => r.error) = some none := by
  refine ⟨by decide, by decide, by decide, by decide⟩

/-- C4 counterexample: the memory backend's `next_pending` pops its FIFO
queue rather than selecting the oldest `requested_at`: with the younger
request (id 1, requested at 50) enqueued before the older pending
request (id 2, requested at 3), the claim returns id 1. -/
theorem claim4_counterexample :
    ((memNextPending 60 c4state).1).map (fun r => r.id) = some 1 ∧
    (c4state.mints 2).map (fun r => r.status) = some MintStatus.pending ∧
    (c4state.mints 2).map (fun r => r.requested_at) = some 3 ∧
    (c4state.mints 1).map (fun r => r.requested_at) = some 50 := by
  refine ⟨by decide, by decide, by decide, by decide⟩

/-- C5 counterexample: for the same failing transfer, the decoupled
worker leaves the request `Failed` with no error message and appends no
`MintFailure` log entry, while inline mode persists the error message
and logs the failure — the two modes produce different ledger states. -/
theorem claim5_counterexample :
    (c5state.mints 1).map (fun r => r.status) = some MintStatus.failed ∧
    (c5state.mints 1).map (fun r => r.error) = some none ∧
    c5state.failures = [] ∧
    (c5inline.mints 1).map (fun r => r.error) = some (some "boom") ∧
    c5inline.failures = [(1, 21, "boom")] := by
  refine ⟨by decide, by decide, by decide, by decide, by decide⟩

/-- C8 counterexample: a request in the terminal status `Completed` is
resurrected to `Pending` by a second `enqueue` with its id — the raw
storage operations do move requests out of terminal states. -/
theorem claim8_counterexample :
    (c8mid.mints 1).map (fun r => r.status) = some MintStatus.completed ∧
    (c8fin.mints 1).map (fun r => r.status) = some MintStatus.pending := by
  refine ⟨by decide, by decide⟩

/-- C10: when the role's daily-cap check passes but the durable
`record_mint` write fails, `check_and_record` surfaces the storage error
while the in-process per-`(user_id, day)` counter keeps the increment —
it is not rolled back — and the durable quota ledger is unchanged. -/
theorem claim10_counter_not_rolled_back
    (limits : LimitConfig) (user : User) (today amount cap : Nat)
    (st : SysState)
    (hcap : maxDailyCap limits user.role = some cap)
    (hceil : amount ≤ maxAmount limits user.role)
    (hfit : st.rlmem (user.id, today) + amount ≤ cap) :
    check_and_record limits user today amount false st =
      (Except.error FErr.storageUnavailable,
        { st with
          rlmem := fupd st.rlmem (user.id, today)
                     (st.rlmem (user.id, today) + amount) }) := by
  have h1 : ¬ amount > maxAmount limits user.role := by omega
  have h2 : ¬ st.rlmem (user.id, today) + amount > cap := by omega
  unfold check_and_record
  simp [h1, hcap, h2]

/-- C10 witness: on the empty store, amount 5 for the plain user: the
call fails, the in-process counter reads 5, the durable `minted_total`
still reads 0, and 5 exceeds 0. -/
theorem claim10_witness :
    (check_and_record cLims cUser 0 5 false emptySys).1 =
      Except.error FErr.storageUnavailable ∧
    (check_and_record cLims cUser 0 5 false emptySys).2.rlmem (7, 0) = 5 ∧
    ((check_and_record cLims cUser 0 5 false emptySys).2.quotas
      (7, 0)).minted_total = 0 ∧ 5 > 0 := by
  have h := claim10_counter_not_rolled_back cLims cUser 0 5 100 emptySys
    (by decide) (by decide) (by decide)
  refine ⟨?_, ?_, ?_, by decide⟩ <;> rw [h] <;> rfl

/-- Helper for C3: a sequence of `check_and_record` calls whose amounts
all pass the role ceiling and whose sum keeps the in-process counter
within the cap all succeed, adding the sum to both the in-process
counter and the durable `minted_total`. -/
theorem runMints_all_ok (limits : LimitConfig) (user : User) (today : Nat)
    (amts : List Nat) (st : SysState) (cap : Nat)
    (hcap : maxDailyCap limits user.role = some cap)
    (hceil : ∀ a ∈ amts, a ≤ maxAmount limits user.role)
    (hsum : st.rlmem (user.id, today) + amts.sum ≤ cap) :
    (runMints limits user today amts st).1 =
      amts.map (fun _ => Except.ok ()) ∧
    (runMints limits user today amts st).2.rlmem (user.id, today) =
      st.rlmem (user.id, today) + amts.sum ∧
    (runMints limits user today amts st).2.quotas (user.id, today) =
      ⟨(st.quotas (user.id, today)).minted_total + amts.sum,
       (st.quotas (user.id, today)).success_count⟩ := by
  induction amts generalizing st with
  | nil => simp [runMints]
  | cons a rest ih =>
    have hceila : a ≤ maxAmount limits user.role := hceil a (by simp)
    have h1 : ¬ a > maxAmount limits user.role := by omega
    have hsuma : st.rlmem (user.id, today) + a + rest.sum ≤ cap := by
      simp [List.sum_cons] at hsum; omega
    have h2 : ¬ st.rlmem (user.id, today) + a > cap := by omega
    have hstep : check_and_record limits user today a true st =
        (Except.ok (), memRecordMint user.id today a
          { st with
            rlmem := fupd st.rlmem (user.id, today)
                       (st.rlmem (user.id, today) + a) }) := by
      unfold check_and_record
      simp [h1, hcap, h2]
    have hmem : (memRecordMint user.id today a
        { st with
          rlmem := fupd st.rlmem (user.id, today)
                     (st.rlmem (user.id, today) + a) }).rlmem (user.id, today) =
        st.rlmem (user.id, today) + a := by
      simp [memRecordMint, fupd]
    have hquot : (memRecordMint user.id today a
        { st with
          rlmem := fupd st.rlmem (user.id, today)
                     (st.rlmem (user.id, today) + a) }).quotas (user.id, today) =
        ⟨(st.quotas (user.id, today)).minted_total + a,
         (st.quotas (user.id, today)).success_count⟩ := by
      simp [memRecordMint, fupd]
    obtain ⟨ihr, ihm, ihq⟩ := ih _ (fun x hx => hceil x (by simp [hx]))
      (by rw [hmem]; omega)
    refine ⟨?_, ?_, ?_⟩ <;>
      simp only [runMints, hstep] <;>
      simp [ihr, ihm, ihq, hmem, hquot, Nat.add_assoc]

/-- C3: for a user whose role has a configured daily cap, starting from
a fresh in-process counter, every sequence of mints whose amounts each
pass the role ceiling and sum to S ≤ cap all succeed (counter and
durable `minted_total` both grow by S), and a further mint that passes
the ceiling but would push the cumulative total past the cap is
rejected with `DailyCapReached`, leaving the state — in-process counter
and durable quota — exactly unchanged. -/
theorem claim3_cap_sequence (limits : LimitConfig) (user : User)
    (today : Nat) (amts : List Nat) (b cap : Nat) (st : SysState)
    (hcap : maxDailyCap limits user.role = some cap)
    (hceil : ∀ a ∈ amts, a ≤ maxAmount limits user.role)
    (hzero : st.rlmem (user.id, today) = 0)
    (hsum : amts.sum ≤ cap)
    (hb : b ≤ maxAmount limits user.role)
    (hover : amts.sum + b > cap) :
    (runMints limits user today amts st).1 =
      amts.map (fun _ => Except.ok ()) ∧
    (runMints limits user today amts st).2.rlmem (user.id, today) =
      amts.sum ∧
    (runMints limits user today amts st).2.quotas (user.id, today) =
      ⟨(st.quotas (user.id, today)).minted_total + amts.sum,
       (st.quotas (user.id, today)).success_count⟩ ∧
    check_and_record limits user today b true
        (runMints limits user today amts st).2 =
      (Except.error FErr.dailyCapReached,
       (runMints limits user today amts st).2) := by
  obtain ⟨hr, hm, hq⟩ := runMints_all_ok limits user today amts st cap hcap
    hceil (by omega)
  have hcur : (runMints limits user today amts st).2.rlmem (user.id, today) =
      amts.sum := by omega
  refine ⟨hr, hcur, hq, ?_⟩
  have h1 : ¬ b > maxAmount limits user.role := by omega
  have h2 : (runMints limits user today amts st).2.rlmem (user.id, today)
      + b > cap := by omega
  unfold check_and_record
  simp [h1, hcap, h2]

/-- C3 witness: ceiling 100 and cap 150 for role `User`; a mint of 80
succeeds leaving counter and `minted_total` at 80, and a second mint of
80 is rejected with `DailyCapReached` without changing the state. -/
theorem claim3_witness :
    (runMints ⟨100, 150, 100, some 150⟩ cUser 0 [80] emptySys).1 =
      [Except.ok ()] ∧
    (runMints ⟨100, 150, 100, some 150⟩ cUser 0 [80] emptySys).2.rlmem
      (7, 0) = 80 ∧
    (runMints ⟨100, 150, 100, some 150⟩ cUser 0 [80] emptySys).2.quotas
      (7, 0) = ⟨80, 0⟩ ∧
    check_and_record ⟨100, 150, 100, some 150⟩ cUser 0 80 true
        (runMints ⟨100, 150, 100, some 150⟩ cUser 0 [80] emptySys).2 =
      (Except.error FErr.dailyCapReached,
       (runMints ⟨100, 150, 100, some 150⟩ cUser 0 [80] emptySys).2) := by
  have h := claim3_cap_sequence ⟨100, 150, 100, some 150⟩ cUser 0 [80] 80 150
    emptySys (by decide) (by decide) (by decide) (by decide) (by decide)
    (by decide)
  simpa [cUser, emptySys] using h

/-- C7: `touch_user` loads or creates the user and re-derives its role
with admin precedence: an existing `Admin` keeps that role regardless of
domain; otherwise a presented domain in the configured privileged-domain
set yields `Privileged` (also for an unknown identity on first sight);
otherwise the existing role is preserved, or defaults to `User` for an
unknown identity.  `last_seen_at` is set to the current time and the
resulting user is persisted on every call. -/
theorem claim7_touch_user (privDomains : List String) (channel : Channel)
    (handle : String) (domain : Option String) (now freshId : Nat)
    (store : UserStore) :
    ((store (userKey channel handle)).map User.role = some Role.admin →
      (touch_user privDomains channel handle domain now freshId store).1.role
        = Role.admin) ∧
    (∀ d, domain = some d → privDomains.contains (asciiLower d) = true →
      (store (userKey channel handle)).map User.role ≠ some Role.admin →
      (touch_user privDomains channel handle domain now freshId store).1.role
        = Role.privileged) ∧
    ((∀ d, domain = some d → privDomains.contains (asciiLower d) = false) →
      (touch_user privDomains channel handle domain now freshId store).1.role
        = ((store (userKey channel handle)).map User.role).getD Role.user) ∧
    (touch_user privDomains channel handle domain now freshId store).1.last_seen_at
      = now ∧
    (touch_user privDomains channel handle domain now freshId store).2
        (userKey channel handle)
      = some (touch_user privDomains channel handle domain now freshId store).1
    := by
  refine ⟨?_, ?_, ?_, ?_, ?_⟩
  · intro hadm
    cases hfind : store (userKey channel handle) with
    | none => rw [hfind] at hadm; simp at hadm
    | some u =>
      rw [hfind] at hadm
      have hr : u.role = Role.admin := by simpa using hadm
      simp [touch_user, hfind, determine_role, hr]
  · intro d hd hpriv hnadm
    have hmem : asciiLower d ∈ privDomains := by simpa using hpriv
    cases hfind : store (userKey channel handle) with
    | none =>
      simp [touch_user, hfind, determine_role, hd, hmem]
    | some u =>
      rw [hfind] at hnadm
      have hur : ¬ u.role = Role.admin := by
        intro h; exact hnadm (by simp [h])
      simp [touch_user, hfind, determine_role, hd, hmem, hur]
  · intro hnpriv
    cases hfind : store (userKey channel handle) with
    | none =>
      cases domain with
      | none => simp [touch_user, hfind, determine_role]
      | some d =>
        have hmem : asciiLower d ∉ privDomains := by
          simpa using hnpriv d rfl
        simp [touch_user, hfind, determine_role, hmem]
    | some u =>
      by_cases hur : u.role = Role.admin
      · simp [touch_user, hfind, determine_role, hur]
      · cases domain with
        | none => simp [touch_user, hfind, determine_role, hur]
        | some d =>
          have hmem : asciiLower d ∉ privDomains := by
            simpa using hnpriv d rfl
          simp [touch_user, hfind, determine_role, hur, hmem]
  · cases hfind : store (userKey channel handle) <;>
      simp [touch_user, hfind]
  · cases hfind : store (userKey channel handle) <;>
      simp [touch_user, hfind, fupd]

/-- C7 witness: an unknown identity presenting domain "Corp.Com" against
the privileged set `["corp.com"]` gets role `Privileged` on first
sight, with `last_seen_at` refreshed and the user persisted. -/
theorem claim7_witness :
    (touch_user ["corp.com"] Channel.web "Bob" (some "Corp.Com") 42 9
      (fun _ => none)).1.role = Role.privileged ∧
    (touch_user ["corp.com"] Channel.web "Bob" (some "Corp.Com") 42 9
      (fun _ => none)).1.last_seen_at = 42 ∧
    (touch_user ["corp.com"] Channel.web "Bob" (some "Corp.Com") 42 9
      (fun _ => none)).2 (userKey Channel.web "Bob")
      = some (touch_user ["corp.com"] Channel.web "Bob" (some "Corp.Com") 42 9
          (fun _ => none)).1 := by
  have h := claim7_touch_user ["corp.com"] Channel.web "Bob"
    (some "Corp.Com") 42 9 (fun _ => none)
  exact ⟨h.2.1 "Corp.Com" rfl (by decide) (by decide), h.2.2.2.1, h.2.2.2.2⟩

/-- C5 amended: on a failing transfer the decoupled worker performs only
`update_status(id, Processing)` followed by `update_status(id, Failed)`:
the stored request ends `Failed` with `processed_at` stamped, but keeps
its previous `error` and `tx_hash` fields (no error message persisted),
no outcome is recorded, no `MintFailure` log entry is appended, and no
other request, quota or counter changes — unlike inline mode, which
persists the error and logs the failure for the same transfer result. -/
theorem claim5_amended_worker_failure (st : SysState)
    (request r0 : MintRequest) (e : String) (t1 t2 : Nat)
    (h : st.mints request.id = some r0) :
    (workerStep request (Except.error e) t1 t2 st).mints request.id =
      some { r0 with status := MintStatus.failed, processed_at := some t2 } ∧
    (∀ j, j ≠ request.id →
      (workerStep request (Except.error e) t1 t2 st).mints j = st.mints j) ∧
    (workerStep request (Except.error e) t1 t2 st).failures = st.failures ∧
    (workerStep request (Except.error e) t1 t2 st).quotas = st.quotas ∧
    (workerStep request (Except.error e) t1 t2 st).queue = st.queue ∧
    (workerStep request (Except.error e) t1 t2 st).rlmem = st.rlmem := by
  refine ⟨?_, ?_, ?_, ?_, ?_, ?_⟩ <;>
    simp [workerStep, memUpdateStatus, h, fupd]
  intro j hj
  simp [hj]

/-- C5 witness: the request enqueued through `MintQueue::enqueue` and
failed by the worker ends `Failed` with `processed_at = 21` and its
error still unset, and the failure log stays empty. -/
theorem claim5_witness :
    (workerStep cReq (Except.error "boom") 20 21
        (mintQueueEnqueue cReq emptySys).1).mints 1 =
      some { cReq with status := MintStatus.failed, processed_at := some 21 } ∧
    (workerStep cReq (Except.error "boom") 20 21
        (mintQueueEnqueue cReq emptySys).1).failures =
      (mintQueueEnqueue cReq emptySys).1.failures := by
  have h := claim5_amended_worker_failure (mintQueueEnqueue cReq emptySys).1
    cReq cReq "boom" 20 21 (by decide)
  exact ⟨h.1, h.2.2.1⟩

/-- `argminRequested` is empty exactly on the empty list. -/
theorem argminRequested_eq_none {l : List MintRequest} :
    argminRequested l = none ↔ l = [] := by
  cases l with
  | nil => simp [argminRequested]
  | cons a rest =>
    simp only [argminRequested]
    cases argminRequested rest with
    | none => simp
    | some m =>
      by_cases hlt : m.requested_at < a.requested_at <;> simp [hlt]

/-- A row picked by `argminRequested` belongs to the list. -/
theorem argminRequested_mem {l : List MintRequest} {r : MintRequest}
    (h : argminRequested l = some r) : r ∈ l := by
  induction l with
  | nil => simp [argminRequested] at h
  | cons a rest ih =>
    simp only [argminRequested] at h
    cases hrec : argminRequested rest with
    | none =>
      simp only [hrec] at h
      injection h with h
      simp [h.symm]
    | some m =>
      simp only [hrec] at h
      by_cases hlt : m.requested_at < a.requested_at
      · rw [if_pos hlt] at h
        injection h with h
        subst h
        exact List.mem_cons_of_mem _ (ih hrec)
      · rw [if_neg hlt] at h
        injection h with h
        subst h
        exact List.mem_cons_self _ _

/-- A row picked by `argminRequested` has minimal `requested_at`. -/
theorem argminRequested_le {l : List MintRequest} {r : MintRequest}
    (h : argminRequested l = some r) :
    ∀ q ∈ l, r.requested_at ≤ q.requested_at := by
  induction l generalizing r with
  | nil => simp [argminRequested] at h
  | cons a rest ih =>
    simp only [argminRequested] at h
    intro q hq
    rcases List.mem_cons.mp hq with hqa | hqr
    · subst hqa
      cases hrec : argminRequested rest with
      | none =>
        simp only [hrec] at h
        injection h with h
        subst h
        exact Nat.le_refl _
      | some m =>
        simp only [hrec] at h
        by_cases hlt : m.requested_at < q.requested_at
        · rw [if_pos hlt] at h
          injection h with h
          subst h
          omega
        · rw [if_neg hlt] at h
          injection h with h
          subst h
          exact Nat.le_refl _
    · cases hrec : argminRequested rest with
      | none =>
        have : rest = [] := argminRequested_eq_none.mp hrec
        subst this
        simp at hqr
      | some m =>
        simp only [hrec] at h
        have hm := ih hrec q hqr
        by_cases hlt : m.requested_at < a.requested_at
        · rw [if_pos hlt] at h
          injection h with h
          subst h
          omega
        · rw [if_neg hlt] at h
          injection h with h
          subst h
          omega

/-- A row selected by the relational `next_pending` query is a pending
row of the table with minimal `requested_at` among pending rows. -/
theorem pgSelectPending_some {rows : List MintRequest} {r : MintRequest}
    (h : pgSelectPending rows = some r) :
    r ∈ rows ∧ r.status = MintStatus.pending ∧
      ∀ q ∈ rows, q.status = MintStatus.pending →
        r.requested_at ≤ q.requested_at := by
  have hmem := argminRequested_mem h
  have hle := argminRequested_le h
  rw [List.mem_filter] at hmem
  refine ⟨hmem.1, by simpa using hmem.2, ?_⟩
  intro q hq hqp
  exact hle q (List.mem_filter.mpr ⟨hq, by simpa using hqp⟩)

/-- With no pending row, the relational `next_pending` query selects
nothing. -/
theorem pgSelectPending_none {rows : List MintRequest}
    (h : ∀ q ∈ rows, ¬ q.status = MintStatus.pending) :
    pgSelectPending rows = none := by
  unfold pgSelectPending
  rw [argminRequested_eq_none, List.filter_eq_nil_iff]
  intro a ha
  simpa using h a ha

/-- C4 amended: the relational (and document) `next_pending` behaves as
claimed — it selects a pending row with minimal `requested_at`,
transitions exactly the rows with that id to `Processing`, stamps
`processed_at`, adds one to `attempt`, and returns the claimed row; with
no pending row it returns none and leaves the table unchanged.  The
memory backend instead claims the resolvable front of its FIFO queue,
which need not be the oldest pending request. -/
theorem claim4_amended_next_pending :
    (∀ now rows r rows', pgNextPending now rows = (some r, rows') →
      ∃ r0, r0 ∈ rows ∧ r0.status = MintStatus.pending ∧
        (∀ q ∈ rows, q.status = MintStatus.pending →
          r0.requested_at ≤ q.requested_at) ∧
        r = pgClaimed r0 now ∧
        rows' = pgApplyClaim r0 now rows) ∧
    (∀ now rows, (∀ q ∈ rows, ¬ q.status = MintStatus.pending) →
      pgNextPending now rows = (none, rows)) ∧
    (∀ now st i rest r, st.queue = i :: rest →
      st.mints i = some r → r.status = MintStatus.pending →
      memNextPending now st =
        (some { r with
                  status := MintStatus.processing
                  processed_at := some now
                  attempt := satAddU16 r.attempt },
         { st with
           mints := fupd st.mints i (some { r with
                      status := MintStatus.processing
                      processed_at := some now
                      attempt := satAddU16 r.attempt })
           queue := rest })) := by
  refine ⟨?_, ?_, ?_⟩
  · intro now rows r rows' h
    unfold pgNextPending at h
    cases hsel : pgSelectPending rows with
    | none => rw [hsel] at h; simp at h
    | some r0 =>
      rw [hsel] at h
      obtain ⟨hmem, hp, hmin⟩ := pgSelectPending_some hsel
      refine ⟨r0, hmem, hp, hmin, ?_, ?_⟩
      · have := congrArg Prod.fst h
        simp at this
        exact this.symm
      · have := congrArg Prod.snd h
        simp at this
        exact this.symm
  · intro now rows h
    unfold pgNextPending
    rw [pgSelectPending_none h]
  · intro now st i rest r hq hm hp
    unfold memNextPending
    rw [hq]
    simp [popClaim, hm, hp]

/-- C4 witness: on a one-row pending table the relational claim returns
the row claimed with minimal `requested_at`; on a table whose only row
is `Processing` it returns none and changes nothing; and on the memory
store whose queue front resolves to pending id 1 it claims that
request. -/
theorem claim4_witness :
    (∃ r0, r0 ∈ [c4old] ∧ r0.status = MintStatus.pending ∧
      (∀ q ∈ [c4old], q.status = MintStatus.pending →
        r0.requested_at ≤ q.requested_at) ∧
      pgClaimed c4old 60 = pgClaimed r0 60 ∧
      [pgClaimed c4old 60] = pgApplyClaim r0 60 [c4old]) ∧
    pgNextPending 60 [c9row] = (none, [c9row]) ∧
    memNextPending 60 c4state =
      (some { c4late with
                status := MintStatus.processing
                processed_at := some 60
                attempt := satAddU16 c4late.attempt },
       { c4state with
         mints := fupd c4state.mints 1 (some { c4late with
                    status := MintStatus.processing
                    processed_at := some 60
                    attempt := satAddU16 c4late.attempt })
         queue := [2] }) := by
  have h := claim4_amended_next_pending
  refine ⟨?_, h.2.1 60 [c9row] (by decide), ?_⟩
  · exact h.1 60 [c4old] (pgClaimed c4old 60) [pgClaimed c4old 60] (by decide)
  · exact h.2.2 60 c4state 1 [2] c4late (by decide) (by decide) (by decide)

/-- `fupd` reads back the written value at the written key. -/
theorem fupd_same {α β : Type} [DecidableEq α] (f : α → β) (k : α) (v : β) :
    fupd f k v k = v := by
  simp [fupd]

/-- `fupd` leaves other keys untouched. -/
theorem fupd_other {α β : Type} [DecidableEq α] (f : α → β) (k j : α)
    (v : β) (h : j ≠ k) : fupd f k v j = f j := by
  simp [fupd, h]

/-- Consecutive `fupd`s at one key collapse to the last. -/
theorem fupd_fupd {α β : Type} [DecidableEq α] (f : α → β) (k : α)
    (a b : β) : fupd (fupd f k a) k b = fupd f k b := by
  funext x
  by_cases h : x = k <;> simp [fupd, h]

/-- The claimed version of a `Pending`/`Processing` entry that satisfies
the ledger field invariant satisfies it as well. -/
theorem ledgerInv_claimed {r : MintRequest} (hinv : ledgerInv r)
    (hc : r.status = MintStatus.pending ∨ r.status = MintStatus.processing)
    (t a : Nat) :
    ledgerInv { r with
      status := MintStatus.processing
      processed_at := some t
      attempt := a } := by
  obtain ⟨h1, h2, _, _⟩ := hinv
  have htx : r.tx_hash = none := by
    by_contra hne
    have := h1.mp hne
    rcases hc with hc | hc <;> rw [hc] at this <;> exact absurd this (by decide)
  have herr : r.error = none := by
    by_contra hne
    have := h2.mp hne
    rcases hc with hc | hc <;> rw [hc] at this <;> exact absurd this (by decide)
  refine ⟨?_, ?_, ?_, ?_⟩ <;> simp [htx, herr]

/-- The claim loop of the memory backend preserves the per-entry ledger
field invariant. -/
theorem popClaim_inv (t : Nat) (m : Nat → Option MintRequest)
    (hm : ∀ i r, m i = some r → ledgerInv r) (q : List Nat) :
    ∀ i r, (popClaim m t q).2.1 i = some r → ledgerInv r := by
  induction q with
  | nil => simpa [popClaim] using hm
  | cons j rest ih =>
    intro i r h
    simp only [popClaim] at h
    cases hj : m j with
    | none =>
      simp only [hj] at h
      exact ih i r h
    | some rj =>
      simp only [hj] at h
      by_cases hc : rj.status = MintStatus.pending ∨
          rj.status = MintStatus.processing
      · rw [if_pos hc] at h
        dsimp only at h
        by_cases hij : i = j
        · subst hij
          rw [fupd_same] at h
          injection h with h
          subst h
          exact ledgerInv_claimed (hm _ _ hj) hc t _
        · rw [fupd_other _ _ _ _ hij] at h
          exact hm i r h
      · rw [if_neg hc] at h
        exact ih i r h

/-- The claim loop never touches an entry already in a terminal
status. -/
theorem popClaim_frame_terminal (t : Nat) (m : Nat → Option MintRequest)
    (i : Nat) (r : MintRequest) (hm : m i = some r)
    (hterm : r.status = MintStatus.completed ∨ r.status = MintStatus.failed)
    (q : List Nat) : (popClaim m t q).2.1 i = m i := by
  induction q with
  | nil => simp [popClaim]
  | cons j rest ih =>
    simp only [popClaim]
    cases hj : m j with
    | none => exact ih
    | some rj =>
      dsimp only
      by_cases hc : rj.status = MintStatus.pending ∨
          rj.status = MintStatus.processing
      · rw [if_pos hc]
        dsimp only
        have hij : i ≠ j := by
          intro he
          subst he
          rw [hm] at hj
          injection hj with hj
          subst hj
          rcases hterm with ht | ht <;> rcases hc with hc | hc <;>
            rw [ht] at hc <;> exact absurd hc (by decide)
        exact fupd_other _ _ _ _ hij
      · rw [if_neg hc]
        exact ih

/-- `check_and_record` never touches the mint ledger, the claim queue or
the failure log, whatever its outcome. -/
theorem check_and_record_frame (limits : LimitConfig) (user : User)
    (today amount : Nat) (repoOk : Bool) (st : SysState) :
    (check_and_record limits user today amount repoOk st).2.mints = st.mints ∧
    (check_and_record limits user today amount repoOk st).2.queue = st.queue ∧
    (check_and_record limits user today amount repoOk st).2.failures
      = st.failures := by
  unfold check_and_record memRecordMint
  by_cases h1 : amount > maxAmount limits user.role
  · simp [h1]
  · cases hcap : maxDailyCap limits user.role with
    | some cap =>
      by_cases h2 : st.rlmem (user.id, today) + amount > cap <;>
        cases repoOk <;> simp [h1, hcap, h2]
    | none => cases repoOk <;> simp [h1, hcap]

/-- An inline `mint` either leaves the mint ledger untouched (rejected
before any ledger write) or rewrites exactly the entry at its fresh
request id with a request satisfying the ledger field invariant. -/
theorem serviceMint_mints_shape (limits : LimitConfig) (user : User)
    (amount freshId trq tdone : Nat) (transfer : Except String String)
    (st : SysState) :
    (serviceMint limits user amount freshId trq tdone transfer st).2.mints
        = st.mints ∨
    ∃ v, ledgerInv v ∧
      (serviceMint limits user amount freshId trq tdone transfer st).2.mints
        = fupd st.mints freshId (some v) := by
  unfold serviceMint
  by_cases h0 : amount = 0
  · left
    simp [h0]
  · rw [if_neg h0]
    rcases hcr : check_and_record limits user (dateNaive trq) amount true st
      with ⟨res, st1⟩
    have hm1 : st1.mints = st.mints := by
      have h := (check_and_record_frame limits user (dateNaive trq) amount
        true st).1
      rw [hcr] at h
      exact h
    cases res with
    | error e =>
      left
      exact hm1
    | ok u =>
      cases transfer with
      | ok hash =>
        right
        refine ⟨inlineOkRecord freshId user amount trq tdone hash, ?_, ?_⟩
        · refine ⟨?_, ?_, ?_, ?_⟩ <;> simp [inlineOkRecord]
        · dsimp only
          unfold memRecordOutcome memUpdateStatus memEnqueue
          simp [newRequest, inlineOkRecord, fupd_same, fupd_fupd, hm1,
            apply_ite]
      | error err =>
        right
        refine ⟨inlineFailRecord freshId user amount trq tdone err, ?_, ?_⟩
        · refine ⟨?_, ?_, ?_, ?_⟩ <;> simp [inlineFailRecord]
        · dsimp only
          unfold memLogFailure memRecordOutcome memUpdateStatus memEnqueue
          simp [newRequest, inlineFailRecord, fupd_same, fupd_fupd, hm1,
            apply_ite]

/-- Every pipeline-level operation preserves the per-entry ledger field
invariant. -/
theorem gstep_inv (limits : LimitConfig) (st : SysState) (op : GOp)
    (hm : ∀ i r, st.mints i = some r → ledgerInv r) :
    ∀ i r, (gstep limits st op).mints i = some r → ledgerInv r := by
  cases op with
  | newReq freshId userId channel amount trq =>
    intro i r h
    simp only [gstep, memEnqueue, newRequest] at h
    by_cases hij : i = freshId
    · subst hij
      rw [fupd_same] at h
      injection h with h
      subst h
      refine ⟨?_, ?_, ?_, ?_⟩ <;> simp
    · rw [fupd_other _ _ _ _ hij] at h
      exact hm i r h
  | claim t =>
    intro i r h
    exact popClaim_inv t st.mints hm st.queue i r h
  | mint user amount freshId trq tdone transfer =>
    intro i r h
    rcases serviceMint_mints_shape limits user amount freshId trq tdone
      transfer st with hsh | ⟨v, hv, hsh⟩
    · simp only [gstep] at h
      rw [hsh] at h
      exact hm i r h
    · simp only [gstep] at h
      rw [hsh] at h
      by_cases hij : i = freshId
      · subst hij
        rw [fupd_same] at h
        injection h with h
        subst h
        exact hv
      · rw [fupd_other _ _ _ _ hij] at h
        exact hm i r h

/-- A trace of pipeline-level operations preserves the per-entry ledger
field invariant. -/
theorem runTrace_inv (limits : LimitConfig) (ops : List GOp) :
    ∀ st : SysState, (∀ i r, st.mints i = some r → ledgerInv r) →
      ∀ i r, (runTrace limits st ops).mints i = some r → ledgerInv r := by
  induction ops with
  | nil => intro st hm; simpa [runTrace] using hm
  | cons op rest ih =>
    intro st hm i r h
    simp only [runTrace] at h
    exact ih _ (gstep_inv limits st op hm) i r h

/-- C2 amended: over states reachable from the empty store through the
pipeline's storage operations — enqueue of a freshly created request,
`next_pending` claims, and inline-mode mints — every stored request
satisfies: `tx_hash` is set iff status is `Completed`; `error` is set
iff status is `Failed`; a terminal status implies `processed_at` is
set; and `processed_at` is set only once the request has left `Pending`
(a claimed `Processing` request already carries `processed_at`, and the
decoupled worker's failure path stores `Failed` without an error, so
the original biconditionals hold only in this weakened, inline-mode
form). -/
theorem claim2_amended_ledger_invariant (limits : LimitConfig)
    (ops : List GOp) (i : Nat) (r : MintRequest)
    (h : (runTrace limits emptySys ops).mints i = some r) : ledgerInv r := by
  refine runTrace_inv limits ops emptySys ?_ i r h
  intro j q hq
  simp [emptySys] at hq

/-- C2 witness: a fresh request enqueued and then claimed is
`Processing` with `processed_at = 30`, and satisfies the weakened
invariant. -/
theorem claim2_witness :
    (runTrace cLims emptySys
      [GOp.newReq 1 2 Channel.web 5 10, GOp.claim 30]).mints 1
      = some c2wreq ∧ ledgerInv c2wreq :=
  ⟨by decide,
   claim2_amended_ledger_invariant cLims
     [GOp.newReq 1 2 Channel.web 5 10, GOp.claim 30] 1 c2wreq (by decide)⟩

/-- A well-formed pipeline-level operation never changes an entry whose
status is terminal. -/
theorem gstep_frame_terminal (limits : LimitConfig) (st : SysState)
    (op : GOp) (i : Nat) (r : MintRequest)
    (hop : goodAt st op = true) (hm : st.mints i = some r)
    (hterm : r.status = MintStatus.completed ∨
      r.status = MintStatus.failed) :
    (gstep limits st op).mints i = some r := by
  cases op with
  | newReq freshId userId channel amount trq =>
    have hnone : st.mints freshId = none := by
      cases hfid : st.mints freshId with
      | none => rfl
      | some q => simp [goodAt, hfid] at hop
    have hij : i ≠ freshId := by
      intro he
      rw [he, hnone] at hm
      cases hm
    simp only [gstep, memEnqueue, newRequest]
    rw [fupd_other _ _ _ _ hij]
    exact hm
  | claim t =>
    exact (popClaim_frame_terminal t st.mints i r hm hterm st.queue).trans hm
  | mint user amount freshId trq tdone transfer =>
    have hnone : st.mints freshId = none := by
      cases hfid : st.mints freshId with
      | none => rfl
      | some q => simp [goodAt, hfid] at hop
    have hij : i ≠ freshId := by
      intro he
      rw [he, hnone] at hm
      cases hm
    rcases serviceMint_mints_shape limits user amount freshId trq tdone
      transfer st with hsh | ⟨v, _, hsh⟩
    · simp only [gstep]
      rw [hsh]
      exact hm
    · simp only [gstep]
      rw [hsh, fupd_other _ _ _ _ hij]
      exact hm

/-- C8 amended: `next_pending` never claims or modifies a terminal
request, and along any well-formed pipeline trace (fresh request ids
for enqueues and mints) a request that has reached `Completed` or
`Failed` keeps exactly that record forever; the raw storage operations
invoked directly with an existing id (a second `enqueue`, an arbitrary
`update_status`, an arbitrary `record_outcome`) can however overwrite a
terminal status. -/
theorem claim8_amended_terminal_stays (limits : LimitConfig)
    (ops : List GOp) (st : SysState) (i : Nat) (r : MintRequest)
    (hgood : goodTrace limits st ops = true)
    (hm : st.mints i = some r)
    (hterm : r.status = MintStatus.completed ∨
      r.status = MintStatus.failed) :
    (runTrace limits st ops).mints i = some r := by
  induction ops generalizing st with
  | nil => simpa [runTrace] using hm
  | cons op rest ih =>
    simp only [goodTrace, Bool.and_eq_true] at hgood
    simp only [runTrace]
    exact ih _ hgood.2 (gstep_frame_terminal limits st op i r hgood.1 hm hterm)

/-- C8 witness: the completed request of `c8mid` survives a further
fresh enqueue and a claim unchanged. -/
theorem claim8_witness :
    goodTrace cLims c8mid [GOp.newReq 5 2 Channel.web 5 30, GOp.claim 40]
      = true ∧
    c8mid.mints 1 = some c8term ∧
    (runTrace cLims c8mid
      [GOp.newReq 5 2 Channel.web 5 30, GOp.claim 40]).mints 1
      = some c8term :=
  ⟨by decide, by decide,
   claim8_amended_terminal_stays cLims
     [GOp.newReq 5 2 Channel.web 5 30, GOp.claim 40] c8mid 1 c8term
     (by decide) (by decide) (by decide)⟩

/-- With an empty queue, the memory `next_pending` returns nothing and
leaves the store unchanged. -/
theorem memNextPending_nil (now : Nat) (st : SysState)
    (hq : st.queue = []) : memNextPending now st = (none, st) := by
  cases st with
  | mk mints queue quotas failures rlmem =>
    dsimp only at hq
    subst hq
    rfl

/-- When the queue front resolves to a pending entry, the memory
`next_pending` claims exactly that entry and pops the front. -/
theorem memNextPending_head (now : Nat) (st : SysState) (i : Nat)
    (rest : List Nat) (r : MintRequest) (hq : st.queue = i :: rest)
    (hm : st.mints i = some r) (hp : r.status = MintStatus.pending) :
    memNextPending now st =
      (some (memClaimedOf r now),
       { st with
         mints := fupd st.mints i (some (memClaimedOf r now))
         queue := rest }) := by
  unfold memNextPending
  rw [hq]
  simp [popClaim, hm, hp, memClaimedOf]

/-- Exactly-once claiming on the memory backend: if the store is
key-consistent, the queue holds no duplicate ids, and the queued ids
are exactly the ids of the pending requests, then `N` serialized
`next_pending` calls with `N` at least the number of pending requests
return each pending request exactly once, in queue order. -/
theorem memClaimN_exact (t : Nat) :
    ∀ (N : Nat) (st : SysState),
      (∀ i r, st.mints i = some r → r.id = i) →
      st.queue.Nodup →
      (∀ i, i ∈ st.queue →
        ∃ r, st.mints i = some r ∧ r.status = MintStatus.pending) →
      (∀ i r, st.mints i = some r → r.status = MintStatus.pending →
        i ∈ st.queue) →
      N ≥ st.queue.length →
      ((memClaimN t N st).1.filterMap (fun x => x)).map (fun r => r.id)
        = st.queue := by
  intro N
  induction N with
  | zero =>
    intro st _ _ _ _ hN
    have hq : st.queue = [] := List.eq_nil_of_length_eq_zero (by omega)
    simp [memClaimN, hq]
  | succ n ih =>
    intro st h0 h1 h2 h3 hN
    cases hq : st.queue with
    | nil =>
      have hstep := memNextPending_nil t st hq
      have htail := ih st h0 h1 h2 h3 (by simp [hq])
      simp only [memClaimN, hstep]
      simpa [hq] using htail
    | cons j rest =>
      obtain ⟨r, hr, hrp⟩ := h2 j (by rw [hq]; exact List.mem_cons_self _ _)
      have hstep := memNextPending_head t st j rest r hq hr hrp
      have hjid : r.id = j := h0 j r hr
      have hjrest : j ∉ rest := by
        have := h1
        rw [hq] at this
        exact (List.nodup_cons.mp this).1
      have h0' : ∀ i q,
          (fupd st.mints j (some (memClaimedOf r t))) i = some q → q.id = i := by
        intro i q hiq
        by_cases hij : i = j
        · subst hij
          rw [fupd_same] at hiq
          injection hiq with hiq
          subst hiq
          simpa [memClaimedOf] using hjid
        · rw [fupd_other _ _ _ _ hij] at hiq
          exact h0 i q hiq
      have h1' : rest.Nodup := by
        have := h1
        rw [hq] at this
        exact (List.nodup_cons.mp this).2
      have h2' : ∀ i, i ∈ rest →
          ∃ q, (fupd st.mints j (some (memClaimedOf r t))) i = some q ∧
            q.status = MintStatus.pending := by
        intro i hi
        have hij : i ≠ j := fun he => hjrest (he ▸ hi)
        obtain ⟨q, hmq, hqp⟩ := h2 i (by rw [hq]; exact List.mem_cons_of_mem _ hi)
        exact ⟨q, by rw [fupd_other _ _ _ _ hij]; exact hmq, hqp⟩
      have h3' : ∀ i q,
          (fupd st.mints j (some (memClaimedOf r t))) i = some q →
          q.status = MintStatus.pending → i ∈ rest := by
        intro i q hiq hqp
        by_cases hij : i = j
        · subst hij
          rw [fupd_same] at hiq
          injection hiq with hiq
          subst hiq
          simp [memClaimedOf] at hqp
        · rw [fupd_other _ _ _ _ hij] at hiq
          have := h3 i q hiq hqp
          rw [hq] at this
          rcases List.mem_cons.mp this with he | he
          · exact absurd he hij
          · exact he
      have hlen : n ≥ rest.length := by
        have := hN
        rw [hq] at this
        simp at this
        omega
      have htail := ih { st with
          mints := fupd st.mints j (some (memClaimedOf r t))
          queue := rest } h0' h1' h2' h3' hlen
      simp only [memClaimN, hstep]
      simp only [List.filterMap_cons, List.map_cons] at htail ⊢
      rw [htail]
      simp [memClaimedOf, hjid]

/-- The relational claim update preserves the ids of the table. -/
theorem pgApplyClaim_ids (r : MintRequest) (now : Nat)
    (rows : List MintRequest) :
    (pgApplyClaim r now rows).map (fun q => q.id)
      = rows.map (fun q => q.id) := by
  induction rows with
  | nil => rfl
  | cons a tl ih =>
    simp only [pgApplyClaim, List.map_cons] at ih ⊢
    by_cases h : a.id = r.id <;> simp [h, ih]

/-- Unfolding `pendingIds` over a cons cell. -/
theorem pendingIds_cons (a : MintRequest) (l : List MintRequest) :
    pendingIds (a :: l) =
      if a.status = MintStatus.pending then a.id :: pendingIds l
      else pendingIds l := by
  by_cases h : a.status = MintStatus.pending <;>
    simp [pendingIds, List.filter_cons, h]

/-- A `Processing` head contributes nothing to `pendingIds`. -/
theorem pendingIds_cons_processing (a : MintRequest) (l : List MintRequest)
    (h : a.status = MintStatus.processing) :
    pendingIds (a :: l) = pendingIds l := by
  simp [pendingIds_cons, h]

/-- Claiming a row whose id occurs nowhere in the list leaves the list
untouched. -/
theorem pgApplyClaim_skip (r : MintRequest) (now : Nat)
    (tl : List MintRequest) (h : ∀ q ∈ tl, q.id ≠ r.id) :
    pgApplyClaim r now tl = tl := by
  induction tl with
  | nil => rfl
  | cons a tf ih =>
    have ha : a.id ≠ r.id := h a (List.mem_cons_self _ _)
    have htf := ih (fun q hq => h q (List.mem_cons_of_mem _ hq))
    simp only [pgApplyClaim, List.map_cons] at htf ⊢
    rw [if_neg ha, htf]

/-- Claiming one pending row removes exactly its id from the pending
ids, up to permutation (ids must be duplicate-free, as the primary key
guarantees). -/
theorem pendingIds_claim_perm (now : Nat) :
    ∀ (rows : List MintRequest) (r : MintRequest), r ∈ rows →
      r.status = MintStatus.pending →
      (rows.map (fun q => q.id)).Nodup →
      List.Perm (pendingIds rows)
        (r.id :: pendingIds (pgApplyClaim r now rows)) := by
  intro rows
  induction rows with
  | nil =>
    intro r hr
    simp at hr
  | cons a tl ih =>
    intro r hr hp hnd
    have hnd1 : a.id ∉ tl.map (fun q => q.id) := by
      simp only [List.map_cons, List.nodup_cons] at hnd
      exact hnd.1
    have hnd2 : (tl.map (fun q => q.id)).Nodup := by
      simp only [List.map_cons, List.nodup_cons] at hnd
      exact hnd.2
    rcases List.mem_cons.mp hr with hra | hrt
    · subst hra
      have htl : pgApplyClaim r now tl = tl := by
        refine pgApplyClaim_skip r now tl ?_
        intro q hq he
        exact hnd1 (he ▸ List.mem_map_of_mem (fun q => q.id) hq)
      simp only [pgApplyClaim, List.map_cons] at htl ⊢
      rw [htl]
      simp only [if_true]
      rw [pendingIds_cons, if_pos hp, pendingIds_cons_processing _ _ rfl]
    · have ha : a.id ≠ r.id := by
        intro he
        exact hnd1 (he ▸ List.mem_map_of_mem (fun q => q.id) hrt)
      have hIH := ih r hrt hp hnd2
      simp only [pgApplyClaim, List.map_cons] at hIH ⊢
      rw [if_neg ha, pendingIds_cons, pendingIds_cons]
      by_cases hap : a.status = MintStatus.pending
      · rw [if_pos hap, if_pos hap]
        exact (hIH.cons a.id).trans (List.Perm.swap r.id a.id _)
      · rw [if_neg hap, if_neg hap]
        exact hIH

/-- Exactly-once claiming on the relational backend: with
duplicate-free row ids, `N` serialized `next_pending` calls with `N` at
least the number of pending rows return, up to order, exactly the
pending rows — each claimed once. -/
theorem pgClaimN_exact (now : Nat) :
    ∀ (N : Nat) (rows : List MintRequest),
      (rows.map (fun q => q.id)).Nodup →
      N ≥ (pendingIds rows).length →
      List.Perm
        (((pgClaimN now N rows).1.filterMap (fun x => x)).map (fun r => r.id))
        (pendingIds rows) := by
  intro N
  induction N with
  | zero =>
    intro rows _ hN
    have hp : pendingIds rows = [] := List.eq_nil_of_length_eq_zero (by omega)
    simp [pgClaimN, hp]
  | succ n ih =>
    intro rows hnd hN
    cases hsel : pgSelectPending rows with
    | none =>
      have hfil : rows.filter (fun r => r.status = MintStatus.pending) = [] :=
        argminRequested_eq_none.mp hsel
      have hp : pendingIds rows = [] := by simp [pendingIds, hfil]
      have htail := ih rows hnd (by simp [hp])
      simp only [pgClaimN, pgNextPending, hsel]
      simpa [hp] using htail
    | some r =>
      obtain ⟨hmem, hpend, _⟩ := pgSelectPending_some hsel
      have hperm := pendingIds_claim_perm now rows r hmem hpend hnd
      have hnd' : ((pgApplyClaim r now rows).map (fun q => q.id)).Nodup := by
        rw [pgApplyClaim_ids]
        exact hnd
      have hlen : n ≥ (pendingIds (pgApplyClaim r now rows)).length := by
        have hL := hperm.length_eq
        simp at hL
        omega
      have htail := ih (pgApplyClaim r now rows) hnd' hlen
      simp only [pgClaimN, pgNextPending, hsel]
      simp only [List.filterMap_cons, List.map_cons]
      refine List.Perm.trans ?_ hperm.symm
      exact htail.cons r.id

/-- The document-store claim coincides with the relational claim on
this abstraction. -/
theorem mongoNextPending_eq_pg (now : Nat) (docs : List MintRequest) :
    mongoNextPending now docs = pgNextPending now docs := rfl

/-- Iterated document-store claims coincide with iterated relational
claims. -/
theorem mongoClaimN_eq_pg (now : Nat) :
    ∀ (N : Nat) (docs : List MintRequest),
      mongoClaimN now N docs = pgClaimN now N docs := by
  intro N
  induction N with
  | zero => intro docs; rfl
  | succ n ih =>
    intro docs
    simp only [mongoClaimN, pgClaimN, mongoNextPending_eq_pg, ih]

/-- C1 amended: provided every request is enqueued exactly once (the
queue of the memory backend holds no duplicate ids and mirrors the
pending requests, and table ids are duplicate-free on the relational
and document backends — the primary-key situation), `N ≥ M` serialized
`next_pending` invocations against `M` pending requests return each
pending request exactly once on all three backends; the backend locks
(queue mutex, row lock, atomic find-and-modify) serialize concurrent
callers, so concurrent executions are interleavings of these atomic
steps.  Without the no-duplicate proviso the memory backend can hand
the same request to two callers (see the counterexample). -/
theorem claim1_amended_exactly_once :
    (∀ (t N : Nat) (st : SysState),
      (∀ i r, st.mints i = some r → r.id = i) →
      st.queue.Nodup →
      (∀ i, i ∈ st.queue →
        ∃ r, st.mints i = some r ∧ r.status = MintStatus.pending) →
      (∀ i r, st.mints i = some r → r.status = MintStatus.pending →
        i ∈ st.queue) →
      N ≥ st.queue.length →
      ((memClaimN t N st).1.filterMap (fun x => x)).map (fun r => r.id)
        = st.queue) ∧
    (∀ (t N : Nat) (rows : List MintRequest),
      (rows.map (fun q => q.id)).Nodup →
      N ≥ (pendingIds rows).length →
      List.Perm
        (((pgClaimN t N rows).1.filterMap (fun x => x)).map (fun r => r.id))
        (pendingIds rows)) ∧
    (∀ (t N : Nat) (docs : List MintRequest),
      (docs.map (fun q => q.id)).Nodup →
      N ≥ (pendingIds docs).length →
      List.Perm
        (((mongoClaimN t N docs).1.filterMap (fun x => x)).map
          (fun r => r.id))
        (pendingIds docs)) := by
  refine ⟨fun t => memClaimN_exact t, fun t => pgClaimN_exact t, ?_⟩
  intro t N docs hnd hN
  rw [mongoClaimN_eq_pg]
  exact pgClaimN_exact t N docs hnd hN

/-- C1 witness: one pending request, one claim call, on each backend:
the memory store returns exactly queue `[1]`, and the relational and
document models return exactly the pending ids of `[c4old]`. -/
theorem claim1_witness :
    ((memClaimN 20 1 (memEnqueue cReq emptySys)).1.filterMap
      (fun x => x)).map (fun r => r.id) = [1] ∧
    List.Perm
      (((pgClaimN 60 1 [c4old]).1.filterMap (fun x => x)).map
        (fun r => r.id))
      (pendingIds [c4old]) ∧
    List.Perm
      (((mongoClaimN 60 1 [c4old]).1.filterMap (fun x => x)).map
        (fun r => r.id))
      (pendingIds [c4old]) := by
  have h := claim1_amended_exactly_once
  refine ⟨?_, h.2.1 60 1 [c4old] (by decide) (by decide),
    h.2.2 60 1 [c4old] (by decide) (by decide)⟩
  have hq : (memEnqueue cReq emptySys).queue = [1] := rfl
  have hm1 : (memEnqueue cReq emptySys).mints 1 = some cReq := rfl
  have hmo : ∀ i, i ≠ 1 → (memEnqueue cReq emptySys).mints i = none := by
    intro i hi
    simp [memEnqueue, emptySys, fupd, cReq, newRequest, hi]
  have hcl := h.1 20 1 (memEnqueue cReq emptySys) ?_ ?_ ?_ ?_ ?_
  · rw [hcl, hq]
  · intro i r hir
    by_cases hi : i = 1
    · subst hi
      rw [hm1] at hir
      injection hir with hir
      subst hir
      rfl
    · rw [hmo i hi] at hir
      cases hir
  · rw [hq]
    decide
  · intro i hi
    rw [hq] at hi
    have : i = 1 := by simpa using hi
    subst this
    exact ⟨cReq, hm1, rfl⟩
  · intro i r hir hp
    by_cases hi : i = 1
    · subst hi
      rw [hq]
      decide
    · rw [hmo i hi] at hir
      cases hir
  · rw [hq]
    decide

end Faucet
